import Mathlib

/-!
# Verification of the dds-tunnel heartbeat monitor and process supervisor

Shallow embedding of `src/heartbeat/heartbeat.py` and `src/start-tunnel.py`.

* The heartbeat wire packet `{seq, type}` is `Sample`; the tag enum
  `MessageType` mirrors the `IntEnum` (`HEARTBEAT = 0`, `ACK = 1`).
* The initiator's `writelog` Python dict is an association list
  `List (Nat × Int)` with Python-dict semantics: `dictGet` models
  `dict.get` (returning `None` when absent), `dictSet` models item
  assignment (update-in-place or append, preserving insertion order),
  `dictDel` models the `del` statement, whose failure (`KeyError`)
  is the `none` result.
* Wall-clock timestamps from `time()` are modelled as integers.
-/

/-- `MessageType` from heartbeat.py: HEARTBEAT = 0, ACK = 1. -/
inductive MessageType where
  | HEARTBEAT : MessageType
  | ACK : MessageType
deriving DecidableEq, Repr

/-- A heartbeat-topic sample as read or written by the connector:
fields `seq` and `type`. -/
structure Sample where
  seq : Nat
  type : MessageType
deriving DecidableEq, Repr

/-- Keys of an association list modelling a Python dict. -/
def dictKeys (d : List (Nat × Int)) : List Nat :=
  d.map Prod.fst

/-- `d.get(k)` for a Python dict: `some` value of the first entry with
key `k`, `none` when absent. -/
def dictGet : List (Nat × Int) → Nat → Option Int
  | [], _ => none
  | p :: ps, k => if p.1 = k then some p.2 else dictGet ps k

/-- `d[k] = v` for a Python dict: update the existing entry in place,
otherwise append the new entry at the end. -/
def dictSet : List (Nat × Int) → Nat → Int → List (Nat × Int)
  | [], k, v => [(k, v)]
  | p :: ps, k, v => if p.1 = k then (k, v) :: ps else p :: dictSet ps k v

/-- `del d[k]` for a Python dict: remove the entry with key `k`;
`none` models the `KeyError` raised when `k` is absent. -/
def dictDel : List (Nat × Int) → Nat → Option (List (Nat × Int))
  | [], _ => none
  | p :: ps, k =>
    if p.1 = k then some ps
    else (dictDel ps k).map (fun d => p :: d)

theorem dictGet_eq_none_iff (d : List (Nat × Int)) (s : Nat) :
    dictGet d s = none ↔ s ∉ dictKeys d := by
  induction d with
  | nil => simp [dictGet, dictKeys]
  | cons p ps ih =>
    by_cases h : p.1 = s
    · simp [dictGet, dictKeys, h]
    · rw [show dictGet (p :: ps) s = dictGet ps s by simp [dictGet, h], ih]
      simp only [dictKeys, List.map_cons, List.mem_cons]
      constructor
      · intro hk hc
        rcases hc with hc | hc
        · exact h hc.symm
        · exact hk hc
      · intro hk hc
        exact hk (Or.inr hc)

theorem dictDel_eq_none_iff (d : List (Nat × Int)) (k : Nat) :
    dictDel d k = none ↔ k ∉ dictKeys d := by
  induction d with
  | nil => simp [dictDel, dictKeys]
  | cons p ps ih =>
    by_cases h : p.1 = k
    · simp [dictDel, dictKeys, h]
    · rw [show dictDel (p :: ps) k = (dictDel ps k).map (fun d => p :: d) by
        simp [dictDel, h]]
      rw [Option.map_eq_none', ih]
      simp only [dictKeys, List.map_cons, List.mem_cons]
      constructor
      · intro hk hc
        rcases hc with hc | hc
        · exact h hc.symm
        · exact hk hc
      · intro hk hc
        exact hk (Or.inr hc)

theorem dictGet_dictSet (d : List (Nat × Int)) (k : Nat) (v : Int) (s : Nat) :
    dictGet (dictSet d k v) s = if s = k then some v else dictGet d s := by
  induction d with
  | nil =>
    by_cases h : s = k
    · simp [dictSet, dictGet, h]
    · have h' : ¬ k = s := fun hc => h hc.symm
      simp [dictSet, dictGet, h, h']
  | cons p ps ih =>
    by_cases hp : p.1 = k
    · by_cases hs : s = k
      · subst hs
        simp [dictSet, dictGet, hp]
      · have hks : ¬ k = s := fun hc => hs hc.symm
        have hps : ¬ p.1 = s := fun hc => hks (hp.symm.trans hc)
        simp [dictSet, dictGet, hp, hs, hks, hps]
    · by_cases hps : p.1 = s
      · have hs : ¬ s = k := fun hc => hp (hps.trans hc)
        simp [dictSet, dictGet, hp, hps, hs]
      · simp [dictSet, dictGet, hp, hps, ih]

theorem mem_dictKeys_dictSet (d : List (Nat × Int)) (k : Nat) (v : Int) (a : Nat) :
    a ∈ dictKeys (dictSet d k v) ↔ a = k ∨ a ∈ dictKeys d := by
  induction d with
  | nil => simp [dictSet, dictKeys]
  | cons p ps ih =>
    by_cases hp : p.1 = k
    · subst hp
      simp [dictSet, dictKeys]
    · simp [dictSet, dictKeys, hp, ih] at *
      tauto

theorem dictKeys_dictSet_nodup (d : List (Nat × Int)) (k : Nat) (v : Int)
    (hnd : (dictKeys d).Nodup) : (dictKeys (dictSet d k v)).Nodup := by
  induction d with
  | nil => simp [dictSet, dictKeys]
  | cons p ps ih =>
    simp only [dictKeys, List.map_cons, List.nodup_cons] at hnd
    by_cases hp : p.1 = k
    · subst hp
      simpa [dictSet, dictKeys, List.nodup_cons] using hnd
    · have h1 : (dictKeys (dictSet ps k v)).Nodup := ih hnd.2
      have h2 : p.1 ∉ dictKeys (dictSet ps k v) := by
        intro hmem
        rcases (mem_dictKeys_dictSet ps k v p.1).mp hmem with h | h
        · exact hp h
        · exact hnd.1 h
      simp [dictSet, dictKeys, hp, List.nodup_cons] at *
      exact ⟨h2, h1⟩

theorem dictKeys_dictDel_sublist (d d' : List (Nat × Int)) (k : Nat)
    (h : dictDel d k = some d') : (dictKeys d').Sublist (dictKeys d) := by
  induction d generalizing d' with
  | nil => simp [dictDel] at h
  | cons p ps ih =>
    by_cases hp : p.1 = k
    · simp only [dictDel, if_pos hp, Option.some_inj] at h
      subst h
      exact (List.sublist_cons_self _ _)
    · simp only [dictDel, if_neg hp, Option.map_eq_some'] at h
      obtain ⟨d'', hd'', rfl⟩ := h
      exact (ih d'' hd'').cons₂ _

theorem dictGet_of_dictDel (d d' : List (Nat × Int)) (k : Nat)
    (hnd : (dictKeys d).Nodup) (h : dictDel d k = some d') (s : Nat) :
    dictGet d' s = if s = k then none else dictGet d s := by
  induction d generalizing d' with
  | nil => simp [dictDel] at h
  | cons p ps ih =>
    simp only [dictKeys, List.map_cons, List.nodup_cons] at hnd
    by_cases hp : p.1 = k
    · simp only [dictDel, if_pos hp, Option.some_inj] at h
      subst h
      by_cases hs : s = k
      · subst hs
        rw [if_pos rfl, dictGet_eq_none_iff]
        exact fun hmem => hnd.1 (hp ▸ hmem)
      · have hps : ¬ p.1 = s := fun h' => hs (h' ▸ hp ▸ rfl)
        simp [dictGet, hps, hs]
    · simp only [dictDel, if_neg hp, Option.map_eq_some'] at h
      obtain ⟨d'', hd'', rfl⟩ := h
      by_cases hps : p.1 = s
      · have hs : ¬ s = k := fun h' => hp (hps.trans h')
        simp [dictGet, hps, hs]
      · simp [dictGet, hps, ih d'' hnd.2 hd'']

theorem dictKeys_dictDel_nodup (d d' : List (Nat × Int)) (k : Nat)
    (hnd : (dictKeys d).Nodup) (h : dictDel d k = some d') :
    (dictKeys d').Nodup :=
  (dictKeys_dictDel_sublist d d' k h).nodup hnd

theorem dict_eq_nil_of_forall_none (d : List (Nat × Int))
    (h : ∀ s, dictGet d s = none) : d = [] := by
  cases d with
  | nil => rfl
  | cons p ps =>
    have := h p.1
    simp [dictGet] at this

/-!
## Initiator (heartbeat.py: `publishHeartbeat`, `subscribeToAck`, `initiator`)

`publishHeartbeat` and `subscribeToAck` are infinite asyncio loops; we embed
one loop-body execution of each and iterate the bodies over explicit traces.
The `connector_lock` makes each body's capability interactions atomic, so a
whole run of the initiator is an interleaving of send bodies and drain
bodies, which the trace model captures.
-/

/-- State owned by `initiator`: the `current_seq` counter of
`publishHeartbeat` and the shared `writelog` dict. -/
structure InitiatorState where
  current_seq : Nat
  writelog : List (Nat × Int)
deriving DecidableEq, Repr

/-- Micro-events of one `publishHeartbeat` loop body, in the order the
statements execute: the `writelog[current_seq] = time()` assignment, the
`writer.write()` call, and the `current_seq += 1` increment. -/
inductive SendEvent where
  | record : Nat → Int → SendEvent
  | publish : Sample → SendEvent
  | incCounter : Nat → SendEvent
deriving DecidableEq, Repr

/-- One loop body of `publishHeartbeat`, executed at wall-clock time `t`:
set `seq` and `type` on the writer instance, record `time()` into the
writelog under `current_seq`, write, then increment `current_seq`.
Returns the new state and the body's micro-events in execution order. -/
def publishHeartbeatBody (st : InitiatorState) (t : Int) :
    InitiatorState × List SendEvent :=
  (⟨st.current_seq + 1, dictSet st.writelog st.current_seq t⟩,
   [SendEvent.record st.current_seq t,
    SendEvent.publish ⟨st.current_seq, MessageType.HEARTBEAT⟩,
    SendEvent.incCounter (st.current_seq + 1)])

/-- Iterate `publishHeartbeatBody` over a list of per-iteration wall-clock
times, concatenating the micro-events. -/
def publishHeartbeatRun (st : InitiatorState) :
    List Int → InitiatorState × List SendEvent
  | [] => (st, [])
  | t :: ts =>
    let r := publishHeartbeatBody st t
    let r' := publishHeartbeatRun r.1 ts
    (r'.1, r.2 ++ r'.2)

/-- A log line printed by `subscribeToAck` for one ACK sample:
`ackUnknown` is the `ACK: seq {seq}` line of the `outgoing_time is None`
branch, `ackRoundtrip` is the round-trip line, carrying
`(current_time - outgoing_time) * 1000`. -/
inductive AckLog where
  | ackUnknown : Nat → AckLog
  | ackRoundtrip : Nat → Int → AckLog
deriving DecidableEq, Repr

/-- The `for sample in reader.samples.valid_data_iter` loop of one
`subscribeToAck` body, at drain time `t` (the `current_time = time()`
taken once before `reader.take()`): non-ACK samples are skipped; for an
ACK sample the code reads `writelog.get(seq)` and then executes
`del writelog[seq]`, which raises `KeyError` (modelled by `.error seq`)
when the sequence is absent. -/
def subscribeToAckDrain (t : Int) (wl : List (Nat × Int)) :
    List Sample → Except Nat (List (Nat × Int) × List AckLog)
  | [] => Except.ok (wl, [])
  | s :: rest =>
    if s.type ≠ MessageType.ACK then subscribeToAckDrain t wl rest
    else
      let outgoing := dictGet wl s.seq
      match dictDel wl s.seq with
      | none => Except.error s.seq
      | some wl' =>
        let line := match outgoing with
          | none => AckLog.ackUnknown s.seq
          | some ot => AckLog.ackRoundtrip s.seq ((t - ot) * 1000)
        match subscribeToAckDrain t wl' rest with
        | Except.error e => Except.error e
        | Except.ok (wlf, lines) => Except.ok (wlf, line :: lines)

/-- One scheduler-level event of the initiator: a `publishHeartbeat` body
at time `t`, or a `subscribeToAck` body at time `t` draining `samples`. -/
inductive InitEvent where
  | send : Int → InitEvent
  | drain : Int → List Sample → InitEvent
deriving DecidableEq, Repr

/-- One initiator step; a `KeyError` in the drain aborts the run. -/
def initStep (st : InitiatorState) : InitEvent → Except Nat (InitiatorState × List AckLog)
  | InitEvent.send t => Except.ok ((publishHeartbeatBody st t).1, [])
  | InitEvent.drain t samples =>
    match subscribeToAckDrain t st.writelog samples with
    | Except.error e => Except.error e
    | Except.ok (wl', lines) => Except.ok (⟨st.current_seq, wl'⟩, lines)

/-- Run the initiator over a trace of scheduler events, collecting the
ACK log lines in order. -/
def initRun (st : InitiatorState) : List InitEvent → Except Nat (InitiatorState × List AckLog)
  | [] => Except.ok (st, [])
  | e :: evs =>
    match initStep st e with
    | Except.error k => Except.error k
    | Except.ok (st', lines) =>
      match initRun st' evs with
      | Except.error k => Except.error k
      | Except.ok (st'', lines') => Except.ok (st'', lines ++ lines')

/-- Wall-clock times of the send events of a trace, in order; the `i`-th
entry is the send time of heartbeat sequence `i`. -/
def sendTimesOf : List InitEvent → List Int
  | [] => []
  | InitEvent.send t :: evs => t :: sendTimesOf evs
  | InitEvent.drain _ _ :: evs => sendTimesOf evs

/-- Sequence numbers of the ACK-typed samples of one drain, in order. -/
def ackSeqsIn (samples : List Sample) : List Nat :=
  (samples.filter (fun s => s.type = MessageType.ACK)).map Sample.seq

/-- Sequence numbers of all ACK-typed samples drained along a trace. -/
def allAckSeqs : List InitEvent → List Nat
  | [] => []
  | InitEvent.send _ :: evs => allAckSeqs evs
  | InitEvent.drain _ samples :: evs => ackSeqsIn samples ++ allAckSeqs evs

/-- Well-formedness of the ACK samples of one drain at time `t`, given the
send times `sts` so far and the already-acknowledged sequences `ack`:
every ACK acknowledges a sequence that was sent (at a time `≤ t`) and not
yet acknowledged, and no sequence is acknowledged twice in the drain. -/
def goodAcks (sts : List Int) (ack : List Nat) (t : Int) : List Sample → Bool
  | [] => true
  | s :: rest =>
    if s.type ≠ MessageType.ACK then goodAcks sts ack t rest
    else
      decide (s.seq < sts.length) && decide (s.seq ∉ ack) &&
        decide (sts.getD s.seq 0 ≤ t) && goodAcks sts (ack ++ [s.seq]) t rest

/-- Well-formedness of an initiator trace: every ACK drained acknowledges,
exactly once, a heartbeat sent earlier in the trace, at a drain time no
earlier than its send time. This encodes "each corresponding ACK is
delivered and processed exactly once, after its send". -/
def goodTrace (sts : List Int) (ack : List Nat) : List InitEvent → Bool
  | [] => true
  | InitEvent.send t :: evs => goodTrace (sts ++ [t]) ack evs
  | InitEvent.drain t samples :: evs =>
    goodAcks sts ack t samples && goodTrace sts (ack ++ ackSeqsIn samples) evs

/-!
## Invariant of the initiator's writelog (the spec's PendingAckTable)
-/

/-- The PendingAckTable invariant relative to ghost values: the send times
`sts` of the heartbeats emitted so far and the sequence numbers `ack`
already matched by a processed ACK. The writelog has no duplicate keys and
holds exactly the sent-but-unacknowledged sequences, each mapped to its
send time. -/
def WriteLogInv (sts : List Int) (ack : List Nat) (wl : List (Nat × Int)) : Prop :=
  (dictKeys wl).Nodup ∧
  ∀ s : Nat, dictGet wl s =
    if s < sts.length ∧ s ∉ ack then some (sts.getD s 0) else none

theorem writeLogInv_nil : WriteLogInv [] [] [] := by
  constructor
  · simp [dictKeys]
  · intro s
    simp [dictGet]

theorem writeLogInv_send (sts : List Int) (ack : List Nat)
    (wl : List (Nat × Int)) (t : Int)
    (hinv : WriteLogInv sts ack wl) (hbound : ∀ a ∈ ack, a < sts.length) :
    WriteLogInv (sts ++ [t]) ack (dictSet wl sts.length t) := by
  obtain ⟨hnd, hget⟩ := hinv
  refine ⟨dictKeys_dictSet_nodup wl sts.length t hnd, fun s => ?_⟩
  rw [dictGet_dictSet]
  by_cases hs : s = sts.length
  · have h1 : sts.length ∉ ack := fun hmem => absurd (hbound _ hmem) (lt_irrefl _)
    have h2 : (sts ++ [t]).getD sts.length 0 = t := by
      simp [List.getD_eq_getElem?_getD, List.getElem?_append_right]
    subst hs
    rw [if_pos rfl, if_pos ⟨by simp, h1⟩, h2]
  · rw [if_neg hs, hget s]
    by_cases hlt : s < sts.length
    · have h2 : (sts ++ [t]).getD s 0 = sts.getD s 0 := by
        simp [List.getD_eq_getElem?_getD, List.getElem?_append_left hlt]
      by_cases hmem : s ∈ ack
      · rw [if_neg (by tauto), if_neg (by tauto)]
      · rw [if_pos ⟨hlt, hmem⟩, if_pos ⟨by simp; omega, hmem⟩, h2]
    · have hlt' : ¬ s < (sts ++ [t]).length := by
        simp only [List.length_append, List.length_singleton]
        omega
      rw [if_neg (by tauto), if_neg (by tauto)]

theorem writeLogInv_ack (sts : List Int) (ack : List Nat)
    (wl wl' : List (Nat × Int)) (a : Nat)
    (hinv : WriteLogInv sts ack wl) (hdel : dictDel wl a = some wl') :
    WriteLogInv sts (ack ++ [a]) wl' := by
  obtain ⟨hnd, hget⟩ := hinv
  refine ⟨dictKeys_dictDel_nodup wl wl' a hnd hdel, fun s => ?_⟩
  rw [dictGet_of_dictDel wl wl' a hnd hdel s]
  by_cases hs : s = a
  · subst hs
    rw [if_pos rfl, if_neg (by simp)]
  · rw [if_neg hs, hget s]
    by_cases hc : s < sts.length ∧ s ∉ ack
    · rw [if_pos hc, if_pos ⟨hc.1, by simp [hc.2, hs]⟩]
    · rw [if_neg hc, if_neg (by simp at *; tauto)]

theorem writeLogInv_get_of_sent (sts : List Int) (ack : List Nat)
    (wl : List (Nat × Int)) (a : Nat)
    (hinv : WriteLogInv sts ack wl) (hlt : a < sts.length) (hmem : a ∉ ack) :
    dictGet wl a = some (sts.getD a 0) := by
  rw [hinv.2 a, if_pos ⟨hlt, hmem⟩]

theorem writeLogInv_mem_keys (sts : List Int) (ack : List Nat)
    (wl : List (Nat × Int)) (a : Nat)
    (hinv : WriteLogInv sts ack wl) (hmem : a ∈ dictKeys wl) :
    a < sts.length ∧ a ∉ ack := by
  by_contra hc
  have hnone : dictGet wl a = none := by rw [hinv.2 a, if_neg hc]
  exact (dictGet_eq_none_iff wl a).mp hnone hmem

theorem ackSeqsIn_cons_ack (s : Sample) (rest : List Sample)
    (hA : s.type = MessageType.ACK) :
    ackSeqsIn (s :: rest) = s.seq :: ackSeqsIn rest := by
  simp [ackSeqsIn, List.filter_cons, hA]

theorem ackSeqsIn_cons_not_ack (s : Sample) (rest : List Sample)
    (hA : ¬ s.type = MessageType.ACK) :
    ackSeqsIn (s :: rest) = ackSeqsIn rest := by
  simp [ackSeqsIn, List.filter_cons, hA]

theorem goodAcks_cons_ack (sts : List Int) (ack : List Nat) (t : Int)
    (s : Sample) (rest : List Sample) (hA : s.type = MessageType.ACK)
    (hg : goodAcks sts ack t (s :: rest) = true) :
    s.seq < sts.length ∧ s.seq ∉ ack ∧ sts.getD s.seq 0 ≤ t ∧
      goodAcks sts (ack ++ [s.seq]) t rest = true := by
  simp only [goodAcks, hA, ne_eq, not_true_eq_false, if_false,
    Bool.and_eq_true, decide_eq_true_eq] at hg
  exact ⟨hg.1.1.1, hg.1.1.2, hg.1.2, hg.2⟩

theorem goodAcks_cons_not_ack (sts : List Int) (ack : List Nat) (t : Int)
    (s : Sample) (rest : List Sample) (hA : ¬ s.type = MessageType.ACK)
    (hg : goodAcks sts ack t (s :: rest) = true) :
    goodAcks sts ack t rest = true := by
  simpa only [goodAcks, hA, ne_eq, not_false_eq_true, if_true] using hg

theorem goodAcks_bound (sts : List Int) (ack : List Nat) (t : Int)
    (samples : List Sample) (hg : goodAcks sts ack t samples = true) :
    ∀ a ∈ ackSeqsIn samples, a < sts.length := by
  induction samples generalizing ack with
  | nil => simp [ackSeqsIn]
  | cons s rest ih =>
    by_cases hA : s.type = MessageType.ACK
    · obtain ⟨hseq, _, _, hrest⟩ := goodAcks_cons_ack sts ack t s rest hA hg
      rw [ackSeqsIn_cons_ack s rest hA]
      intro a ha
      rcases List.mem_cons.mp ha with rfl | ha
      · exact hseq
      · exact ih (ack ++ [s.seq]) hrest a ha
    · rw [ackSeqsIn_cons_not_ack s rest hA]
      exact ih ack (goodAcks_cons_not_ack sts ack t s rest hA hg)

theorem goodAcks_nodup (sts : List Int) (ack : List Nat) (t : Int)
    (samples : List Sample) (hnd : ack.Nodup)
    (hg : goodAcks sts ack t samples = true) :
    (ack ++ ackSeqsIn samples).Nodup := by
  induction samples generalizing ack with
  | nil => simpa [ackSeqsIn]
  | cons s rest ih =>
    by_cases hA : s.type = MessageType.ACK
    · obtain ⟨_, hnmem, _, hrest⟩ := goodAcks_cons_ack sts ack t s rest hA hg
      have h1 : (ack ++ [s.seq]).Nodup := by
        simp [List.nodup_append, hnd, hnmem]
      have h2 := ih (ack ++ [s.seq]) h1 hrest
      rw [ackSeqsIn_cons_ack s rest hA]
      simpa [List.append_assoc] using h2
    · rw [ackSeqsIn_cons_not_ack s rest hA]
      exact ih ack hnd (goodAcks_cons_not_ack sts ack t s rest hA hg)

theorem subscribeToAckDrain_good (sts : List Int) (ack : List Nat) (t : Int)
    (samples : List Sample) (wl : List (Nat × Int))
    (hinv : WriteLogInv sts ack wl)
    (hg : goodAcks sts ack t samples = true) :
    ∃ wl' lines, subscribeToAckDrain t wl samples = Except.ok (wl', lines) ∧
      WriteLogInv sts (ack ++ ackSeqsIn samples) wl' ∧
      lines.length = (ackSeqsIn samples).length ∧
      ∀ l ∈ lines, ∃ a r, l = AckLog.ackRoundtrip a r ∧ 0 ≤ r := by
  induction samples generalizing ack wl with
  | nil =>
    refine ⟨wl, [], rfl, ?_, by simp [ackSeqsIn], by simp⟩
    simpa [ackSeqsIn]
  | cons s rest ih =>
    by_cases hA : s.type = MessageType.ACK
    · obtain ⟨hseq, hnmem, htime, hrest⟩ := goodAcks_cons_ack sts ack t s rest hA hg
      have hget : dictGet wl s.seq = some (sts.getD s.seq 0) :=
        writeLogInv_get_of_sent sts ack wl s.seq hinv hseq hnmem
      have hmemk : s.seq ∈ dictKeys wl := by
        by_contra hmemk
        rw [(dictGet_eq_none_iff wl s.seq).mpr hmemk] at hget
        exact Option.noConfusion hget
      cases hdel : dictDel wl s.seq with
      | none => exact absurd ((dictDel_eq_none_iff wl s.seq).mp hdel) (by simpa)
      | some wl'' =>
        have hinv' : WriteLogInv sts (ack ++ [s.seq]) wl'' :=
          writeLogInv_ack sts ack wl wl'' s.seq hinv hdel
        obtain ⟨wl', lines, hrun, hinv2, hlen, hnn⟩ := ih (ack ++ [s.seq]) wl'' hinv' hrest
        refine ⟨wl', AckLog.ackRoundtrip s.seq ((t - sts.getD s.seq 0) * 1000) :: lines,
          ?_, ?_, ?_, ?_⟩
        · simp only [subscribeToAckDrain, hA, ne_eq, not_true_eq_false, if_false,
            hget, hdel, hrun]
        · rw [ackSeqsIn_cons_ack s rest hA]
          simpa [List.append_assoc] using hinv2
        · rw [ackSeqsIn_cons_ack s rest hA]
          simp [hlen]
        · intro l hl
          rcases List.mem_cons.mp hl with rfl | hl
          · exact ⟨s.seq, (t - sts.getD s.seq 0) * 1000, rfl,
              mul_nonneg (sub_nonneg.mpr htime) (by norm_num)⟩
          · exact hnn l hl
    · have hrest := goodAcks_cons_not_ack sts ack t s rest hA hg
      obtain ⟨wl', lines, hrun, hinv2, hlen, hnn⟩ := ih ack wl hinv hrest
      refine ⟨wl', lines, ?_, ?_, ?_, hnn⟩
      · simpa only [subscribeToAckDrain, hA, ne_eq, not_false_eq_true, if_true]
          using hrun
      · rw [ackSeqsIn_cons_not_ack s rest hA]
        exact hinv2
      · rw [ackSeqsIn_cons_not_ack s rest hA]
        exact hlen

theorem subscribeToAckDrain_ok (sts : List Int) (ack : List Nat) (t : Int)
    (samples : List Sample) (wl wl' : List (Nat × Int)) (lines : List AckLog)
    (hinv : WriteLogInv sts ack wl)
    (hok : subscribeToAckDrain t wl samples = Except.ok (wl', lines)) :
    WriteLogInv sts (ack ++ ackSeqsIn samples) wl' ∧
      ∀ a ∈ ackSeqsIn samples, a < sts.length := by
  induction samples generalizing ack wl lines with
  | nil =>
    simp only [subscribeToAckDrain, Except.ok.injEq, Prod.mk.injEq] at hok
    refine ⟨?_, by simp [ackSeqsIn]⟩
    rw [← hok.1]
    simpa [ackSeqsIn]
  | cons s rest ih =>
    by_cases hA : s.type = MessageType.ACK
    · cases hdel : dictDel wl s.seq with
      | none =>
        simp [subscribeToAckDrain, hA, hdel] at hok
      | some wl'' =>
        have hmemk : s.seq ∈ dictKeys wl := by
          by_contra hmemk
          rw [(dictDel_eq_none_iff wl s.seq).mpr hmemk] at hdel
          exact Option.noConfusion hdel
        have hlt := writeLogInv_mem_keys sts ack wl s.seq hinv hmemk
        have hinv' : WriteLogInv sts (ack ++ [s.seq]) wl'' :=
          writeLogInv_ack sts ack wl wl'' s.seq hinv hdel
        simp only [subscribeToAckDrain, hA, ne_eq, not_true_eq_false, if_false,
          hdel] at hok
        have hok2 : ∃ lns, subscribeToAckDrain t wl'' rest = Except.ok (wl', lns) := by
          cases hrec : subscribeToAckDrain t wl'' rest with
          | error e =>
            simp only [hrec] at hok
            exact absurd hok (by simp)
          | ok r =>
            obtain ⟨wlf, lns⟩ := r
            simp only [hrec, Except.ok.injEq, Prod.mk.injEq] at hok
            exact ⟨lns, by rw [hok.1]⟩
        obtain ⟨lns, hrec⟩ := hok2
        obtain ⟨h1, h2⟩ := ih (ack ++ [s.seq]) wl'' lns hinv' hrec
        rw [ackSeqsIn_cons_ack s rest hA]
        constructor
        · simpa [List.append_assoc] using h1
        · intro a ha
          rcases List.mem_cons.mp ha with rfl | ha
          · exact hlt.1
          · exact h2 a ha
    · simp only [subscribeToAckDrain, hA, ne_eq, not_false_eq_true, if_true] at hok
      obtain ⟨h1, h2⟩ := ih ack wl lines hinv hok
      rw [ackSeqsIn_cons_not_ack s rest hA]
      exact ⟨h1, h2⟩

theorem initRun_good (evs : List InitEvent) (sts : List Int) (ack : List Nat)
    (wl : List (Nat × Int))
    (hinv : WriteLogInv sts ack wl)
    (hbound : ∀ a ∈ ack, a < sts.length)
    (hnd : ack.Nodup)
    (hg : goodTrace sts ack evs = true) :
    ∃ st' lines, initRun ⟨sts.length, wl⟩ evs = Except.ok (st', lines) ∧
      st'.current_seq = (sts ++ sendTimesOf evs).length ∧
      WriteLogInv (sts ++ sendTimesOf evs) (ack ++ allAckSeqs evs) st'.writelog ∧
      (ack ++ allAckSeqs evs).Nodup ∧
      (∀ a ∈ ack ++ allAckSeqs evs, a < (sts ++ sendTimesOf evs).length) ∧
      lines.length = (allAckSeqs evs).length ∧
      ∀ l ∈ lines, ∃ a r, l = AckLog.ackRoundtrip a r ∧ 0 ≤ r := by
  induction evs generalizing sts ack wl with
  | nil =>
    refine ⟨⟨sts.length, wl⟩, [], rfl, by simp [sendTimesOf], ?_, ?_, ?_, ?_, by simp⟩
    · simpa [sendTimesOf, allAckSeqs]
    · simpa [allAckSeqs]
    · simpa [sendTimesOf, allAckSeqs] using hbound
    · simp [allAckSeqs]
  | cons e evs ih =>
    cases e with
    | send t =>
      have hg' : goodTrace (sts ++ [t]) ack evs = true := by
        simpa only [goodTrace] using hg
      have hinv' : WriteLogInv (sts ++ [t]) ack (dictSet wl sts.length t) :=
        writeLogInv_send sts ack wl t hinv hbound
      have hbound' : ∀ a ∈ ack, a < (sts ++ [t]).length := by
        intro a ha
        have := hbound a ha
        simp only [List.length_append, List.length_singleton]
        omega
      obtain ⟨st', lines, hrun, hseq, hinv2, hnd2, hb2, hlen, hnn⟩ :=
        ih (sts ++ [t]) ack (dictSet wl sts.length t) hinv' hbound' hnd hg'
      refine ⟨st', lines, ?_, ?_, ?_, ?_, ?_, ?_, hnn⟩
      · have hlen1 : (sts ++ [t]).length = sts.length + 1 := by simp
        simp only [initRun, initStep, publishHeartbeatBody]
        rw [show initRun ⟨sts.length + 1, dictSet wl sts.length t⟩ evs =
            initRun ⟨(sts ++ [t]).length, dictSet wl sts.length t⟩ evs by rw [hlen1]]
        rw [hrun]
        simp
      · simpa [sendTimesOf, List.append_assoc] using hseq
      · simpa [sendTimesOf, allAckSeqs, List.append_assoc] using hinv2
      · simpa [allAckSeqs] using hnd2
      · simpa [sendTimesOf, allAckSeqs, List.append_assoc] using hb2
      · simpa [allAckSeqs] using hlen
    | drain t samples =>
      have hg1 : goodAcks sts ack t samples = true ∧
          goodTrace sts (ack ++ ackSeqsIn samples) evs = true := by
        simpa only [goodTrace, Bool.and_eq_true] using hg
      obtain ⟨wl'', lines0, hdrain, hinv'', hlen0, hnn0⟩ :=
        subscribeToAckDrain_good sts ack t samples wl hinv hg1.1
      have hbound'' : ∀ a ∈ ack ++ ackSeqsIn samples, a < sts.length := by
        intro a ha
        rcases List.mem_append.mp ha with ha | ha
        · exact hbound a ha
        · exact goodAcks_bound sts ack t samples hg1.1 a ha
      have hnd'' : (ack ++ ackSeqsIn samples).Nodup :=
        goodAcks_nodup sts ack t samples hnd hg1.1
      obtain ⟨st', lines1, hrun, hseq, hinv2, hnd2, hb2, hlen1, hnn1⟩ :=
        ih sts (ack ++ ackSeqsIn samples) wl'' hinv'' hbound'' hnd'' hg1.2
      refine ⟨st', lines0 ++ lines1, ?_, ?_, ?_, ?_, ?_, ?_, ?_⟩
      · simp only [initRun, initStep, hdrain, hrun]
      · simpa [sendTimesOf] using hseq
      · simpa [sendTimesOf, allAckSeqs, List.append_assoc] using hinv2
      · simpa [allAckSeqs, List.append_assoc] using hnd2
      · simpa [sendTimesOf, allAckSeqs, List.append_assoc] using hb2
      · simp [allAckSeqs, hlen0, hlen1]
      · intro l hl
        rcases List.mem_append.mp hl with hl | hl
        · exact hnn0 l hl
        · exact hnn1 l hl

theorem initRun_ok_inv (evs : List InitEvent) (sts : List Int) (ack : List Nat)
    (wl : List (Nat × Int)) (st' : InitiatorState) (lines : List AckLog)
    (hinv : WriteLogInv sts ack wl)
    (hbound : ∀ a ∈ ack, a < sts.length)
    (hok : initRun ⟨sts.length, wl⟩ evs = Except.ok (st', lines)) :
    WriteLogInv (sts ++ sendTimesOf evs) (ack ++ allAckSeqs evs) st'.writelog := by
  induction evs generalizing sts ack wl lines with
  | nil =>
    simp only [initRun, Except.ok.injEq, Prod.mk.injEq] at hok
    rw [← hok.1]
    simpa [sendTimesOf, allAckSeqs]
  | cons e evs ih =>
    cases e with
    | send t =>
      have hinv' : WriteLogInv (sts ++ [t]) ack (dictSet wl sts.length t) :=
        writeLogInv_send sts ack wl t hinv hbound
      have hbound' : ∀ a ∈ ack, a < (sts ++ [t]).length := by
        intro a ha
        have := hbound a ha
        simp only [List.length_append, List.length_singleton]
        omega
      have hok' : initRun ⟨(sts ++ [t]).length, dictSet wl sts.length t⟩ evs =
          Except.ok (st', lines) := by
        have hlen1 : (sts ++ [t]).length = sts.length + 1 := by simp
        rw [hlen1]
        simp only [initRun, initStep, publishHeartbeatBody] at hok
        cases hrun : initRun ⟨sts.length + 1, dictSet wl sts.length t⟩ evs with
        | error e =>
          simp only [hrun] at hok
          exact absurd hok (by simp)
        | ok r =>
          obtain ⟨st2, lines2⟩ := r
          simp only [hrun, List.nil_append, Except.ok.injEq, Prod.mk.injEq] at hok
          rw [hok.1, hok.2]
      have := ih (sts ++ [t]) ack (dictSet wl sts.length t) lines hinv' hbound' hok'
      simpa [sendTimesOf, allAckSeqs, List.append_assoc] using this
    | drain t samples =>
      have hstep : ∃ wl2 lines0 lines1,
          subscribeToAckDrain t wl samples = Except.ok (wl2, lines0) ∧
          initRun ⟨sts.length, wl2⟩ evs = Except.ok (st', lines1) := by
        cases hdrain : subscribeToAckDrain t wl samples with
        | error e =>
          simp only [initRun, initStep, hdrain] at hok
          exact absurd hok (by simp)
        | ok r =>
          obtain ⟨wl2, lines0⟩ := r
          simp only [initRun, initStep, hdrain] at hok
          cases hrun : initRun ⟨sts.length, wl2⟩ evs with
          | error e =>
            simp only [hrun] at hok
            exact absurd hok (by simp)
          | ok r2 =>
            obtain ⟨st2, lines1⟩ := r2
            simp only [hrun, Except.ok.injEq, Prod.mk.injEq] at hok
            exact ⟨wl2, lines0, lines1, rfl, by rw [hrun, hok.1]⟩
      obtain ⟨wl2, lines0, lines1, hdrain, hrun⟩ := hstep
      obtain ⟨hinv2, hb2⟩ :=
        subscribeToAckDrain_ok sts ack t samples wl wl2 lines0 hinv hdrain
      have hbound2 : ∀ a ∈ ack ++ ackSeqsIn samples, a < sts.length := by
        intro a ha
        rcases List.mem_append.mp ha with ha | ha
        · exact hbound a ha
        · exact hb2 a ha
      have := ih sts (ack ++ ackSeqsIn samples) wl2 lines1 hinv2 hbound2 hrun
      simpa [sendTimesOf, allAckSeqs, List.append_assoc] using this

/-- C1: the claim says an ACK whose sequence is not in the PendingAckTable
is handled without error, logged informationally, and leaves other entries
intact. The source's `subscribeToAck` computes `writelog.get(seq)` and then
unconditionally executes `del writelog[seq]`, which raises `KeyError` for
an unknown sequence, so the informational `ACK: seq {seq}` branch guarded by
`outgoing_time is None` is unreachable. Evaluated at the failing input: the
writelog holds only sequence 1, and an ACK for sequence 0 is drained; the
drain aborts with `KeyError(0)` instead of logging and continuing. -/
theorem subscribeToAck_unknown_ack_keyerror :
    subscribeToAckDrain 7 [(1, 2)] [⟨0, MessageType.ACK⟩] = Except.error 0 := by
  rfl

/-- C4: for every well-formed initiator trace (each ACK drained acknowledges
a previously sent heartbeat exactly once, no earlier than its send) in which
every sent sequence number is eventually acknowledged, the run succeeds, the
final writelog (PendingAckTable) is empty, and exactly N round-trip lines
are logged — one per heartbeat sent — each carrying a non-negative
round-trip value. -/
theorem initiator_all_acks_roundtrip (evs : List InitEvent)
    (hg : goodTrace [] [] evs = true)
    (hall : ∀ s ∈ List.range (sendTimesOf evs).length, s ∈ allAckSeqs evs) :
    ∃ st' lines, initRun ⟨0, []⟩ evs = Except.ok (st', lines) ∧
      st'.writelog = [] ∧
      lines.length = (sendTimesOf evs).length ∧
      ∀ l ∈ lines, ∃ a r, l = AckLog.ackRoundtrip a r ∧ 0 ≤ r := by
  obtain ⟨st', lines, hrun, hseq, hinv, hnd, hb, hlen, hnn⟩ :=
    initRun_good evs [] [] [] writeLogInv_nil (by simp) (by simp) hg
  refine ⟨st', lines, hrun, ?_, ?_, hnn⟩
  · apply dict_eq_nil_of_forall_none
    intro s
    rw [hinv.2 s, if_neg]
    intro hc
    have hs : s < (sendTimesOf evs).length := by simpa using hc.1
    have hmem := hall s (List.mem_range.mpr hs)
    have hni : s ∉ allAckSeqs evs := by simpa using hc.2
    exact hni hmem
  · have hnd' : (allAckSeqs evs).Nodup := by simpa using hnd
    have hsub : allAckSeqs evs ⊆ List.range (sendTimesOf evs).length := by
      intro a ha
      apply List.mem_range.mpr
      have := hb a (by simpa using ha)
      simpa using this
    have hsup : List.range (sendTimesOf evs).length ⊆ allAckSeqs evs := fun a ha =>
      hall a ha
    have hplen := ((hnd'.subperm hsub).antisymm
      ((List.nodup_range _).subperm hsup)).length_eq
    rw [hlen, hplen, List.length_range]

/-- Witness for C4: one heartbeat sent at time 5, its ACK drained at time 7;
the run succeeds, empties the table, and logs one non-negative round trip. -/
theorem initiator_all_acks_roundtrip_witness :
    ∃ st' lines,
      initRun ⟨0, []⟩ [InitEvent.send 5, InitEvent.drain 7 [⟨0, MessageType.ACK⟩]] =
        Except.ok (st', lines) ∧
      st'.writelog = [] ∧
      lines.length = (sendTimesOf
        [InitEvent.send 5, InitEvent.drain 7 [⟨0, MessageType.ACK⟩]]).length ∧
      ∀ l ∈ lines, ∃ a r, l = AckLog.ackRoundtrip a r ∧ 0 ≤ r :=
  initiator_all_acks_roundtrip
    [InitEvent.send 5, InitEvent.drain 7 [⟨0, MessageType.ACK⟩]]
    (by decide) (by decide)

/-- C8: after any successfully completed initiator execution (the theorem is
quantified over every trace, hence over every prefix of a longer execution),
the writelog (PendingAckTable) maps a sequence number `s` to a timestamp
exactly when `s` was sent as a heartbeat and not yet matched by a processed
ACK, and the mapped value is the wall-clock send time of heartbeat `s`.
In particular an entry disappears only through a matching ACK — no step of
the model removes entries by timeout or expiry. -/
theorem initiator_writelog_invariant (evs : List InitEvent)
    (st' : InitiatorState) (lines : List AckLog)
    (hok : initRun ⟨0, []⟩ evs = Except.ok (st', lines)) (s : Nat) :
    dictGet st'.writelog s =
      if s < (sendTimesOf evs).length ∧ s ∉ allAckSeqs evs
      then some ((sendTimesOf evs).getD s 0) else none := by
  have h := initRun_ok_inv evs [] [] [] st' lines writeLogInv_nil (by simp) hok
  have h2 := h.2 s
  simpa using h2

/-- Witness for C8: after sending heartbeats 0 and 1 (at times 3 and 4) and
processing the ACK for 0, the table holds exactly sequence 1 with its send
time 4. -/
theorem initiator_writelog_invariant_witness :
    dictGet (InitiatorState.mk 2 [(1, 4)]).writelog 1 =
      if 1 < (sendTimesOf [InitEvent.send 3, InitEvent.send 4,
          InitEvent.drain 9 [⟨0, MessageType.ACK⟩]]).length ∧
        1 ∉ allAckSeqs [InitEvent.send 3, InitEvent.send 4,
          InitEvent.drain 9 [⟨0, MessageType.ACK⟩]]
      then some ((sendTimesOf [InitEvent.send 3, InitEvent.send 4,
          InitEvent.drain 9 [⟨0, MessageType.ACK⟩]]).getD 1 0) else none :=
  initiator_writelog_invariant
    [InitEvent.send 3, InitEvent.send 4, InitEvent.drain 9 [⟨0, MessageType.ACK⟩]]
    (InitiatorState.mk 2 [(1, 4)]) [AckLog.ackRoundtrip 0 6000] (by rfl) 1

/-!
## Send-duty ordering (C9) and the responder role (C5)
-/

/-- The micro-event trace that `publishHeartbeatRun` is proved to produce:
for the `i`-th iteration, a `record` of sequence `k + i` at that
iteration's time, then the `publish` of the HEARTBEAT packet with the same
sequence, then the counter increment. -/
def expectedSendEvents (k : Nat) : List Int → List SendEvent
  | [] => []
  | t :: ts =>
    SendEvent.record k t :: SendEvent.publish ⟨k, MessageType.HEARTBEAT⟩ ::
      SendEvent.incCounter (k + 1) :: expectedSendEvents (k + 1) ts

/-- The packets written by `writer.write()`, in order, extracted from a
send-duty micro-event trace. -/
def publishedPackets (evs : List SendEvent) : List Sample :=
  evs.filterMap (fun e => match e with
    | SendEvent.publish p => some p
    | _ => none)

theorem dictSet_append_fresh (wl : List (Nat × Int)) (k : Nat) (t : Int)
    (h : ∀ p ∈ wl, p.1 ≠ k) : dictSet wl k t = wl ++ [(k, t)] := by
  induction wl with
  | nil => rfl
  | cons p ps ih =>
    have hp : ¬ p.1 = k := h p (List.mem_cons_self p ps)
    simp [dictSet, hp, ih (fun q hq => h q (List.mem_cons_of_mem p hq))]

theorem publishHeartbeatRun_spec (ts : List Int) (k : Nat) (wl : List (Nat × Int))
    (hw : ∀ p ∈ wl, p.1 < k) :
    publishHeartbeatRun ⟨k, wl⟩ ts =
      (⟨k + ts.length, wl ++ List.enumFrom k ts⟩, expectedSendEvents k ts) := by
  induction ts generalizing k wl with
  | nil => simp [publishHeartbeatRun, expectedSendEvents]
  | cons t ts ih =>
    have hset : dictSet wl k t = wl ++ [(k, t)] :=
      dictSet_append_fresh wl k t (fun p hp => Nat.ne_of_lt (hw p hp))
    have hw' : ∀ p ∈ wl ++ [(k, t)], p.1 < k + 1 := by
      intro p hp
      rcases List.mem_append.mp hp with hp | hp
      · exact Nat.lt_succ_of_lt (hw p hp)
      · simp only [List.mem_singleton] at hp
        subst hp
        exact Nat.lt_succ_self k
    have hih := ih (k + 1) (wl ++ [(k, t)]) hw'
    simp only [publishHeartbeatRun, publishHeartbeatBody, hset, hih,
      expectedSendEvents, List.enumFrom, List.length_cons]
    refine Prod.ext ?_ rfl
    refine congrArg₂ InitiatorState.mk (by omega) ?_
    simp [List.append_assoc]

theorem expectedSendEvents_get (n : Nat) :
    ∀ (k : Nat) (ts : List Int), n < ts.length →
      (expectedSendEvents k ts).get? (3 * n) =
          some (SendEvent.record (k + n) (ts.getD n 0)) ∧
        (expectedSendEvents k ts).get? (3 * n + 1) =
          some (SendEvent.publish ⟨k + n, MessageType.HEARTBEAT⟩) ∧
        (expectedSendEvents k ts).get? (3 * n + 2) =
          some (SendEvent.incCounter (k + n + 1)) := by
  induction n with
  | zero =>
    intro k ts hn
    cases ts with
    | nil => simp at hn
    | cons t ts => simp [expectedSendEvents, List.getD]
  | succ n ih =>
    intro k ts hn
    cases ts with
    | nil => simp at hn
    | cons t ts =>
      have hn' : n < ts.length := by
        simp only [List.length_cons] at hn
        omega
      have h := ih (k + 1) ts hn'
      have h3 : 3 * (n + 1) = 3 * n + 1 + 1 + 1 := by ring
      have e1 : k + 1 + n = k + (n + 1) := by omega
      have e2 : (t :: ts).getD (n + 1) 0 = ts.getD n 0 := by simp [List.getD]
      rw [h3]
      refine ⟨?_, ?_, ?_⟩
      · rw [show expectedSendEvents k (t :: ts) =
          SendEvent.record k t :: SendEvent.publish ⟨k, MessageType.HEARTBEAT⟩ ::
            SendEvent.incCounter (k + 1) :: expectedSendEvents (k + 1) ts from rfl]
        rw [List.get?_cons_succ, List.get?_cons_succ, List.get?_cons_succ]
        rw [h.1, e1, e2]
      · rw [show expectedSendEvents k (t :: ts) =
          SendEvent.record k t :: SendEvent.publish ⟨k, MessageType.HEARTBEAT⟩ ::
            SendEvent.incCounter (k + 1) :: expectedSendEvents (k + 1) ts from rfl]
        rw [show 3 * n + 1 + 1 + 1 + 1 = (3 * n + 1) + 1 + 1 + 1 from by ring]
        rw [List.get?_cons_succ, List.get?_cons_succ, List.get?_cons_succ]
        rw [h.2.1, e1]
      · rw [show expectedSendEvents k (t :: ts) =
          SendEvent.record k t :: SendEvent.publish ⟨k, MessageType.HEARTBEAT⟩ ::
            SendEvent.incCounter (k + 1) :: expectedSendEvents (k + 1) ts from rfl]
        rw [show 3 * n + 1 + 1 + 1 + 2 = (3 * n + 2) + 1 + 1 + 1 from by ring]
        rw [List.get?_cons_succ, List.get?_cons_succ, List.get?_cons_succ]
        rw [h.2.2, e1]

theorem publishedPackets_expected (k : Nat) (ts : List Int) :
    publishedPackets (expectedSendEvents k ts) =
      (List.range ts.length).map
        (fun i => (⟨k + i, MessageType.HEARTBEAT⟩ : Sample)) := by
  induction ts generalizing k with
  | nil => rfl
  | cons t ts ih =>
    rw [show expectedSendEvents k (t :: ts) =
      SendEvent.record k t :: SendEvent.publish ⟨k, MessageType.HEARTBEAT⟩ ::
        SendEvent.incCounter (k + 1) :: expectedSendEvents (k + 1) ts from rfl]
    rw [show publishedPackets (SendEvent.record k t ::
        SendEvent.publish ⟨k, MessageType.HEARTBEAT⟩ ::
        SendEvent.incCounter (k + 1) :: expectedSendEvents (k + 1) ts) =
      (⟨k, MessageType.HEARTBEAT⟩ : Sample) ::
        publishedPackets (expectedSendEvents (k + 1) ts) from rfl]
    rw [ih (k + 1)]
    rw [show (t :: ts).length = ts.length + 1 from rfl, List.range_succ_eq_map]
    simp only [List.map_cons, List.map_map]
    refine congrArg₂ List.cons (by simp) ?_
    apply List.map_congr_left
    intro i _
    simp only [Function.comp_apply]
    refine congrArg₂ Sample.mk (by omega) rfl

theorem dictGet_enumFrom (ts : List Int) (k s : Nat) :
    dictGet (List.enumFrom k ts) s =
      if k ≤ s ∧ s < k + ts.length then some (ts.getD (s - k) 0) else none := by
  induction ts generalizing k with
  | nil =>
    simp only [List.enumFrom, dictGet, List.length_nil, Nat.add_zero]
    rw [if_neg (by omega)]
  | cons t ts ih =>
    simp only [List.enumFrom, dictGet, List.length_cons]
    by_cases h : k = s
    · subst h
      rw [if_pos rfl, if_pos ⟨le_refl k, by omega⟩]
      simp [List.getD]
    · rw [if_neg h, ih (k + 1)]
      by_cases h2 : k + 1 ≤ s ∧ s < k + 1 + ts.length
      · rw [if_pos h2, if_pos (by omega)]
        have hsk : s - k = (s - (k + 1)) + 1 := by omega
        rw [hsk]
        simp [List.getD]
      · rw [if_neg h2, if_neg (by omega)]

/-- C9: each iteration of `publishHeartbeat` emits a HEARTBEAT packet
carrying the next sequence number — the `n`-th packet published has
`seq = n` and `type = HEARTBEAT`, with sequences starting at 0 and
increasing by exactly one per send. In the micro-event trace the `record`
of the send time into the writelog under that sequence (index `3n`) occurs
strictly before the `publish` (index `3n + 1`), and the counter increment
to `n + 1` (index `3n + 2`) occurs strictly after it; the recorded entry
maps sequence `n` to that iteration's wall-clock time. -/
theorem publishHeartbeat_send_duty (ts : List Int) (n : Nat) (hn : n < ts.length) :
    (publishedPackets (publishHeartbeatRun ⟨0, []⟩ ts).2).get? n =
        some ⟨n, MessageType.HEARTBEAT⟩ ∧
      (publishHeartbeatRun ⟨0, []⟩ ts).2.get? (3 * n) =
        some (SendEvent.record n (ts.getD n 0)) ∧
      (publishHeartbeatRun ⟨0, []⟩ ts).2.get? (3 * n + 1) =
        some (SendEvent.publish ⟨n, MessageType.HEARTBEAT⟩) ∧
      (publishHeartbeatRun ⟨0, []⟩ ts).2.get? (3 * n + 2) =
        some (SendEvent.incCounter (n + 1)) ∧
      dictGet (publishHeartbeatRun ⟨0, []⟩ ts).1.writelog n = some (ts.getD n 0) ∧
      (publishHeartbeatRun ⟨0, []⟩ ts).1.current_seq = ts.length := by
  have hrun := publishHeartbeatRun_spec ts 0 [] (by simp)
  rw [hrun]
  have hev := expectedSendEvents_get n 0 ts hn
  refine ⟨?_, ?_, ?_, ?_, ?_, by simp⟩
  · rw [publishedPackets_expected]
    rw [List.get?_map, List.get?_range hn]
    simp
  · simpa using hev.1
  · simpa using hev.2.1
  · simpa using hev.2.2
  · show dictGet ([] ++ List.enumFrom 0 ts) n = some (ts.getD n 0)
    rw [List.nil_append, dictGet_enumFrom]
    rw [if_pos ⟨Nat.zero_le n, by omega⟩]
    simp

/-- Witness for C9 at the concrete trace with send times `[5, 7]` and
iteration `n = 1`. -/
theorem publishHeartbeat_send_duty_witness :
    (publishedPackets (publishHeartbeatRun ⟨0, []⟩ [5, 7]).2).get? 1 =
        some ⟨1, MessageType.HEARTBEAT⟩ ∧
      (publishHeartbeatRun ⟨0, []⟩ [5, 7]).2.get? (3 * 1) =
        some (SendEvent.record 1 ([(5 : Int), 7].getD 1 0)) ∧
      (publishHeartbeatRun ⟨0, []⟩ [5, 7]).2.get? (3 * 1 + 1) =
        some (SendEvent.publish ⟨1, MessageType.HEARTBEAT⟩) ∧
      (publishHeartbeatRun ⟨0, []⟩ [5, 7]).2.get? (3 * 1 + 2) =
        some (SendEvent.incCounter (1 + 1)) ∧
      dictGet (publishHeartbeatRun ⟨0, []⟩ [5, 7]).1.writelog 1 =
        some ([(5 : Int), 7].getD 1 0) ∧
      (publishHeartbeatRun ⟨0, []⟩ [5, 7]).1.current_seq = [(5 : Int), 7].length :=
  publishHeartbeat_send_duty [5, 7] 1 (by decide)

/-- The `for sample in reader.samples.valid_data_iter` loop of one
responder drain (heartbeat.py `responder`): non-HEARTBEAT samples are
skipped; for each HEARTBEAT sample the responder sets `seq` to the observed
sequence and `type` to ACK on the writer instance and writes. Returns the
packets written, in order. -/
def responderDrain : List Sample → List Sample
  | [] => []
  | s :: rest =>
    if s.type ≠ MessageType.HEARTBEAT then responderDrain rest
    else ⟨s.seq, MessageType.ACK⟩ :: responderDrain rest

/-- The responder's outer `while True` loop: each round waits (with a
500 ms bounded timeout whose expiry is ignored), takes all available
samples, and runs the drain loop; the published packets of successive
rounds concatenate in order. -/
def responderRun (drains : List (List Sample)) : List Sample :=
  (drains.map responderDrain).flatten

theorem responderDrain_eq (samples : List Sample) :
    responderDrain samples =
      (samples.filter (fun s => s.type = MessageType.HEARTBEAT)).map
        (fun s => (⟨s.seq, MessageType.ACK⟩ : Sample)) := by
  induction samples with
  | nil => rfl
  | cons s rest ih =>
    by_cases h : s.type = MessageType.HEARTBEAT <;>
      simp [responderDrain, List.filter_cons, h, ih]

/-- C5: over any sequence of drain rounds, the responder publishes exactly
one ACK per observed HEARTBEAT, carrying the same sequence number, in the
order the heartbeats were observed — and publishes nothing for observed
ACK samples (the filter keeps only HEARTBEAT-typed samples). -/
theorem responder_acks_heartbeats_exactly (drains : List (List Sample)) :
    responderRun drains =
      ((drains.flatten).filter (fun s => s.type = MessageType.HEARTBEAT)).map
        (fun s => (⟨s.seq, MessageType.ACK⟩ : Sample)) := by
  induction drains with
  | nil => rfl
  | cons d ds ih =>
    have hstep : responderRun (d :: ds) = responderDrain d ++ responderRun ds := by
      simp [responderRun]
    have hflat : (d :: ds).flatten = d ++ ds.flatten := by simp
    rw [hstep, hflat, List.filter_append, List.map_append, responderDrain_eq d, ih]

/-!
## Process supervisor (start-tunnel.py)

Child names and output lines are abstracted as natural numbers; exit codes
are integers. Each `SupProc` is the supervisor's view of one child at a
point in time: the lines its background reader threads have queued on the
stdout and stderr queues and the current `poll()` result (`none` while the
child runs). `wait_and_print_output` iterates the source's
`while True: for proc in procs` loop; the explicit `fuel` bounds the number
of `while` iterations of a loop that the source runs unboundedly, and the
returned `Option Int` records whether (and with which child exit code) the
`return` statement fired — the Python function itself returns `None`.
-/

/-- The supervisor's view of one child: `{name, out_readline, err_readline,
process}` of start-tunnel.py, with the two line queues made explicit and
`exited` the current `poll()` result. -/
structure SupProc where
  name : Nat
  outQ : List Nat
  errQ : List Nat
  exited : Option Int
deriving DecidableEq, Repr

/-- Observable events of the supervisor: a labelled stdout line print, a
labelled stderr line print, the `exited with return code` report, and a
`send_signal(INT_SIGNAL)` call (only the interrupt handler emits these).
The first argument of the print/report events is the group name. -/
inductive SupEvent where
  | printedOut : Nat → Nat → Nat → SupEvent
  | printedErr : Nat → Nat → Nat → SupEvent
  | reportedExit : Nat → Nat → Int → SupEvent
  | signalSent : Nat → SupEvent
deriving DecidableEq, Repr

/-- Result of `Queue.get_nowait()`: an item, or the raised `Empty`
exception. -/
inductive QueueGet where
  | item : Nat → QueueGet
  | emptyError : QueueGet
deriving DecidableEq, Repr

/-- `Queue.get_nowait()`: the front item, or the `Empty` exception when the
queue is empty (the queue is unchanged either way). -/
def get_nowait : List Nat → QueueGet × List Nat
  | [] => (QueueGet.emptyError, [])
  | x :: xs => (QueueGet.item x, xs)

/-- `readline_nowait` from `popen_nonblocking`: call `q.get_nowait()`,
catching the `Empty` exception and returning `None` in that case. -/
def readline_nowait (q : List Nat) : Option Nat × List Nat :=
  match get_nowait q with
  | (QueueGet.item x, q') => (some x, q')
  | (QueueGet.emptyError, q') => (none, q')

/-- One `for proc in procs` body of `wait_and_print_output`: pop at most
one stdout line and one stderr line (printing those present), then
`poll()`; a non-`None` poll result prints the exit report and triggers the
`return` (the `some` in the third component). -/
def stepProc (g : Nat) (p : SupProc) : SupProc × List SupEvent × Option Int :=
  let o := readline_nowait p.outQ
  let e := readline_nowait p.errQ
  let evs :=
    (match o.1 with
      | some l => [SupEvent.printedOut g p.name l]
      | none => []) ++
    (match e.1 with
      | some l => [SupEvent.printedErr g p.name l]
      | none => [])
  let p' : SupProc := { p with outQ := o.2, errQ := e.2 }
  match p.exited with
  | some c => (p', evs ++ [SupEvent.reportedExit g p.name c], some c)
  | none => (p', evs, none)

/-- One full `for proc in procs` pass: children are visited in group
order; the pass stops at (and returns from) the first child whose `poll()`
is non-`None`, leaving the remaining children untouched in that pass. -/
def passProcs (g : Nat) : List SupProc → List SupProc × List SupEvent × Option Int
  | [] => ([], [], none)
  | p :: ps =>
    let r := stepProc g p
    match r.2.2 with
    | some c => (r.1 :: ps, r.2.1, some c)
    | none =>
      let r' := passProcs g ps
      (r.1 :: r'.1, r.2.1 ++ r'.2.1, r'.2.2)

/-- `wait_and_print_output(groupname, procs)`: iterate passes until a
child's exit is observed (`some code`) or the iteration bound runs out
(`none`, the loop would still be running). -/
def wait_and_print_output (g : Nat) :
    Nat → List SupProc → List SupProc × List SupEvent × Option Int
  | 0, procs => (procs, [], none)
  | fuel + 1, procs =>
    let r := passProcs g procs
    match r.2.2 with
    | some c => (r.1, r.2.1, some c)
    | none =>
      let r' := wait_and_print_output g fuel r.1
      (r'.1, r.2.1 ++ r'.2.1, r'.2.2)

/-- C10: `readline_nowait` returns `None` on an empty queue — the
`Empty` exception that `get_nowait` raises there is caught — and one full
polling-loop body over a child with no queued output and a running process
changes nothing, prints nothing, and does not return. -/
theorem readline_nowait_empty_none (g : Nat) (p : SupProc)
    (h1 : p.outQ = []) (h2 : p.errQ = []) (h3 : p.exited = none) :
    readline_nowait [] = (none, []) ∧
      get_nowait [] = (QueueGet.emptyError, []) ∧
      stepProc g p = (p, [], none) ∧
      passProcs g [p] = ([p], [], none) := by
  obtain ⟨nm, oq, er, ex⟩ := p
  simp only at h1 h2 h3
  subst h1
  subst h2
  subst h3
  exact ⟨rfl, rfl, rfl, rfl⟩

/-- Witness for C10: a concrete silent, running child. -/
theorem readline_nowait_empty_none_witness :
    readline_nowait [] = (none, []) ∧
      get_nowait [] = (QueueGet.emptyError, []) ∧
      stepProc 3 ⟨4, [], [], none⟩ = (⟨4, [], [], none⟩, [], none) ∧
      passProcs 3 [⟨4, [], [], none⟩] = ([⟨4, [], [], none⟩], [], none) :=
  readline_nowait_empty_none 3 ⟨4, [], [], none⟩ rfl rfl rfl

/-- Extract the `(group, name, code)` of an exit-report event. -/
def exitReportOf : SupEvent → Option (Nat × Nat × Int)
  | SupEvent.reportedExit g n c => some (g, n, c)
  | _ => none

/-- Extract the target name of a `send_signal` event. -/
def signalOf : SupEvent → Option Nat
  | SupEvent.signalSent n => some n
  | _ => none

theorem stepProc_poll (g : Nat) (p : SupProc) : (stepProc g p).2.2 = p.exited := by
  obtain ⟨nm, oq, er, ex⟩ := p
  cases ex <;> rfl

theorem stepProc_exits (g : Nat) (p : SupProc) (c : Int) (hp : p.exited = some c) :
    ∃ p' pr,
      stepProc g p = (p', pr ++ [SupEvent.reportedExit g p.name c], some c) ∧
      (∀ e ∈ pr, exitReportOf e = none ∧ signalOf e = none) ∧
      p'.name = p.name := by
  obtain ⟨nm, oq, er, ex⟩ := p
  simp only at hp
  subst hp
  cases oq with
  | nil =>
    cases er with
    | nil => exact ⟨_, [], rfl, by simp, rfl⟩
    | cons b er =>
      refine ⟨_, [SupEvent.printedErr g nm b], rfl, ?_, rfl⟩
      intro e he
      simp only [List.mem_singleton] at he
      subst he
      exact ⟨rfl, rfl⟩
  | cons a oq =>
    cases er with
    | nil =>
      refine ⟨_, [SupEvent.printedOut g nm a], rfl, ?_, rfl⟩
      intro e he
      simp only [List.mem_singleton] at he
      subst he
      exact ⟨rfl, rfl⟩
    | cons b er =>
      refine ⟨_, [SupEvent.printedOut g nm a, SupEvent.printedErr g nm b], rfl, ?_, rfl⟩
      intro e he
      rcases List.mem_cons.mp he with rfl | he
      · exact ⟨rfl, rfl⟩
      · simp only [List.mem_singleton] at he
        subst he
        exact ⟨rfl, rfl⟩

theorem stepProc_running (g : Nat) (p : SupProc) (hp : p.exited = none) :
    ∃ p' pr, stepProc g p = (p', pr, none) ∧
      (∀ e ∈ pr, exitReportOf e = none ∧ signalOf e = none) ∧
      p'.name = p.name := by
  obtain ⟨nm, oq, er, ex⟩ := p
  simp only at hp
  subst hp
  cases oq with
  | nil =>
    cases er with
    | nil => exact ⟨_, [], rfl, by simp, rfl⟩
    | cons b er =>
      refine ⟨_, [SupEvent.printedErr g nm b], rfl, ?_, rfl⟩
      intro e he
      simp only [List.mem_singleton] at he
      subst he
      exact ⟨rfl, rfl⟩
  | cons a oq =>
    cases er with
    | nil =>
      refine ⟨_, [SupEvent.printedOut g nm a], rfl, ?_, rfl⟩
      intro e he
      simp only [List.mem_singleton] at he
      subst he
      exact ⟨rfl, rfl⟩
    | cons b er =>
      refine ⟨_, [SupEvent.printedOut g nm a, SupEvent.printedErr g nm b], rfl, ?_, rfl⟩
      intro e he
      rcases List.mem_cons.mp he with rfl | he
      · exact ⟨rfl, rfl⟩
      · simp only [List.mem_singleton] at he
        subst he
        exact ⟨rfl, rfl⟩

theorem passProcs_first_exit (g : Nat) (pre suf : List SupProc)
    (p : SupProc) (c : Int)
    (hpre : ∀ q ∈ pre, q.exited = none) (hp : p.exited = some c) :
    ∃ procs' evs, passProcs g (pre ++ p :: suf) = (procs', evs, some c) ∧
      evs.filterMap exitReportOf = [(g, p.name, c)] ∧
      evs.filterMap signalOf = [] := by
  induction pre with
  | nil =>
    obtain ⟨p', pr, hstep, hpr, hname⟩ := stepProc_exits g p c hp
    refine ⟨p' :: suf, pr ++ [SupEvent.reportedExit g p.name c], ?_, ?_, ?_⟩
    · simp only [List.nil_append, passProcs, hstep]
    · rw [List.filterMap_append]
      have h0 : pr.filterMap exitReportOf = [] :=
        List.filterMap_eq_nil_iff.mpr fun e he => (hpr e he).1
      rw [h0]
      rfl
    · rw [List.filterMap_append]
      have h0 : pr.filterMap signalOf = [] :=
        List.filterMap_eq_nil_iff.mpr fun e he => (hpr e he).2
      rw [h0]
      rfl
  | cons q pre ih =>
    have hq : q.exited = none := hpre q (List.mem_cons_self q pre)
    obtain ⟨q', pr, hstep, hpr, _⟩ := stepProc_running g q hq
    obtain ⟨procs', evs, hrec, hex, hsig⟩ :=
      ih (fun r hr => hpre r (List.mem_cons_of_mem q hr))
    refine ⟨q' :: procs', pr ++ evs, ?_, ?_, ?_⟩
    · simp only [List.cons_append, passProcs, hstep, List.append_eq, hrec]
    · rw [List.filterMap_append,
        List.filterMap_eq_nil_iff.mpr fun e he => (hpr e he).1, hex]
      rfl
    · rw [List.filterMap_append,
        List.filterMap_eq_nil_iff.mpr fun e he => (hpr e he).2, hsig]
      rfl

/-- C6: first-exit-ends-the-group. If, in group order, the children before
`p` are still running and `p` has exited with code `c`, then (for any
positive iteration bound) `wait_and_print_output` returns during its very
first pass: it reports exactly one exit — child `p` with code `c`, so
no still-running sibling is reported as exited — and sends no signal to
any child. -/
theorem wait_first_exit_ends_group (g fuel : Nat) (pre suf : List SupProc)
    (p : SupProc) (c : Int)
    (hpre : ∀ q ∈ pre, q.exited = none) (hp : p.exited = some c)
    (hfuel : 0 < fuel) :
    ∃ procs' evs,
      wait_and_print_output g fuel (pre ++ p :: suf) = (procs', evs, some c) ∧
      evs.filterMap exitReportOf = [(g, p.name, c)] ∧
      evs.filterMap signalOf = [] := by
  obtain ⟨fuel', rfl⟩ : ∃ f, fuel = f + 1 := ⟨fuel - 1, by omega⟩
  obtain ⟨procs', evs, hpass, hex, hsig⟩ := passProcs_first_exit g pre suf p c hpre hp
  exact ⟨procs', evs, by simp only [wait_and_print_output, hpass], hex, hsig⟩

/-- Witness for C6, the spec's scenario: three children, the middle one
exited with code 7, the others running; the run reports only child 2 with
code 7 and signals nobody. -/
theorem wait_first_exit_ends_group_witness :
    ∃ procs' evs,
      wait_and_print_output 0 1
        ([⟨1, [], [], none⟩] ++ (⟨2, [], [], some 7⟩ : SupProc) ::
          [⟨3, [], [], none⟩]) = (procs', evs, some 7) ∧
      evs.filterMap exitReportOf = [(0, (⟨2, [], [], some 7⟩ : SupProc).name, 7)] ∧
      evs.filterMap signalOf = [] :=
  wait_first_exit_ends_group 0 1 [⟨1, [], [], none⟩] [⟨3, [], [], none⟩]
    ⟨2, [], [], some 7⟩ 7 (by decide) rfl (by decide)

/-- The stdout lines printed for the child named `nm`, in print order. -/
def outLinesOf (nm : Nat) (evs : List SupEvent) : List Nat :=
  evs.filterMap (fun e => match e with
    | SupEvent.printedOut _ n l => if n = nm then some l else none
    | _ => none)

theorem outLinesOf_append (nm : Nat) (l1 l2 : List SupEvent) :
    outLinesOf nm (l1 ++ l2) = outLinesOf nm l1 ++ outLinesOf nm l2 := by
  simp [outLinesOf]

theorem stepProc_exited (g : Nat) (p : SupProc) :
    (stepProc g p).1.exited = p.exited := by
  obtain ⟨nm, oq, er, ex⟩ := p
  cases ex <;> rfl

theorem stepProc_outlines_self (g : Nat) (p : SupProc) :
    outLinesOf p.name (stepProc g p).2.1 = p.outQ.take 1 ∧
      (stepProc g p).1.outQ = p.outQ.drop 1 ∧
      (stepProc g p).1.name = p.name := by
  obtain ⟨nm, oq, er, ex⟩ := p
  cases oq <;> cases er <;> cases ex <;>
    simp [stepProc, outLinesOf, readline_nowait, get_nowait]

theorem stepProc_outlines_other (g nm : Nat) (q : SupProc) (h : q.name ≠ nm) :
    outLinesOf nm (stepProc g q).2.1 = [] := by
  obtain ⟨qn, oq, er, ex⟩ := q
  simp only at h
  cases oq <;> cases er <;> cases ex <;>
    simp [stepProc, outLinesOf, readline_nowait, get_nowait, h]

theorem passProcs_cons_exit (g : Nat) (q : SupProc) (rest : List SupProc)
    (c : Int) (hex : q.exited = some c) :
    passProcs g (q :: rest) =
      ((stepProc g q).1 :: rest, (stepProc g q).2.1, some c) := by
  have hpoll := stepProc_poll g q
  rw [hex] at hpoll
  simp only [passProcs, hpoll]

theorem passProcs_cons_run (g : Nat) (q : SupProc) (rest : List SupProc)
    (hex : q.exited = none) :
    passProcs g (q :: rest) =
      ((stepProc g q).1 :: (passProcs g rest).1,
        (stepProc g q).2.1 ++ (passProcs g rest).2.1,
        (passProcs g rest).2.2) := by
  have hpoll := stepProc_poll g q
  rw [hex] at hpoll
  simp only [passProcs, hpoll]

theorem passProcs_names (g : Nat) (procs : List SupProc) :
    (passProcs g procs).1.map SupProc.name = procs.map SupProc.name := by
  induction procs with
  | nil => rfl
  | cons q rest ih =>
    cases hex : q.exited with
    | some c =>
      rw [passProcs_cons_exit g q rest c hex]
      show (stepProc g q).1.name :: rest.map SupProc.name =
        q.name :: rest.map SupProc.name
      rw [(stepProc_outlines_self g q).2.2]
    | none =>
      rw [passProcs_cons_run g q rest hex]
      show (stepProc g q).1.name :: (passProcs g rest).1.map SupProc.name =
        q.name :: rest.map SupProc.name
      rw [(stepProc_outlines_self g q).2.2, ih]

theorem passProcs_outlines_notmem (g nm : Nat) (procs : List SupProc)
    (h : ∀ q ∈ procs, q.name ≠ nm) :
    outLinesOf nm (passProcs g procs).2.1 = [] := by
  induction procs with
  | nil => rfl
  | cons q rest ih =>
    have hq : q.name ≠ nm := h q (List.mem_cons_self q rest)
    cases hex : q.exited with
    | some c =>
      rw [passProcs_cons_exit g q rest c hex]
      exact stepProc_outlines_other g nm q hq
    | none =>
      rw [passProcs_cons_run g q rest hex]
      show outLinesOf nm ((stepProc g q).2.1 ++ (passProcs g rest).2.1) = []
      rw [outLinesOf_append, stepProc_outlines_other g nm q hq,
        ih (fun r hr => h r (List.mem_cons_of_mem q hr))]
      rfl

theorem passProcs_pref (g : Nat) (procs : List SupProc)
    (hnd : (procs.map SupProc.name).Nodup) (p : SupProc) (hp : p ∈ procs) :
    ∃ k p', outLinesOf p.name (passProcs g procs).2.1 = p.outQ.take k ∧
      p' ∈ (passProcs g procs).1 ∧ p'.name = p.name ∧ p'.outQ = p.outQ.drop k := by
  induction procs with
  | nil => cases hp
  | cons q rest ih =>
    have hnd1 : q.name ∉ rest.map SupProc.name ∧ (rest.map SupProc.name).Nodup := by
      have h0 := hnd
      simp only [List.map_cons, List.nodup_cons] at h0
      exact h0
    rcases List.mem_cons.mp hp with rfl | hp
    · obtain ⟨ht, hd, hn⟩ := stepProc_outlines_self g p
      cases hex : p.exited with
      | some c =>
        rw [passProcs_cons_exit g p rest c hex]
        exact ⟨1, (stepProc g p).1, ht, List.mem_cons_self _ _, hn, hd⟩
      | none =>
        rw [passProcs_cons_run g p rest hex]
        refine ⟨1, (stepProc g p).1, ?_, List.mem_cons_self _ _, hn, hd⟩
        show outLinesOf p.name ((stepProc g p).2.1 ++ (passProcs g rest).2.1) =
          p.outQ.take 1
        rw [outLinesOf_append, ht, passProcs_outlines_notmem g p.name rest
          (fun r hr hrn => hnd1.1 (hrn ▸ List.mem_map_of_mem SupProc.name hr))]
        simp
    · have hqp : q.name ≠ p.name :=
        fun hc => hnd1.1 (hc ▸ List.mem_map_of_mem SupProc.name hp)
      cases hex : q.exited with
      | some c =>
        rw [passProcs_cons_exit g q rest c hex]
        refine ⟨0, p, ?_, List.mem_cons_of_mem _ hp, rfl, by simp⟩
        show outLinesOf p.name (stepProc g q).2.1 = p.outQ.take 0
        rw [stepProc_outlines_other g p.name q hqp]
        simp
      | none =>
        rw [passProcs_cons_run g q rest hex]
        obtain ⟨k, p', ht, hmem, hn, hd⟩ := ih hnd1.2 hp
        refine ⟨k, p', ?_, List.mem_cons_of_mem _ hmem, hn, hd⟩
        show outLinesOf p.name ((stepProc g q).2.1 ++ (passProcs g rest).2.1) =
          p.outQ.take k
        rw [outLinesOf_append, stepProc_outlines_other g p.name q hqp, ht]
        rfl

theorem wait_names (g fuel : Nat) (procs : List SupProc) :
    (wait_and_print_output g fuel procs).1.map SupProc.name =
      procs.map SupProc.name := by
  induction fuel generalizing procs with
  | zero => rfl
  | succ fuel ih =>
    cases hres : (passProcs g procs).2.2 with
    | some c =>
      simp only [wait_and_print_output, hres]
      exact passProcs_names g procs
    | none =>
      simp only [wait_and_print_output, hres]
      rw [ih (passProcs g procs).1, passProcs_names]

theorem wait_outlines_pref (g fuel : Nat) (procs : List SupProc)
    (hnd : (procs.map SupProc.name).Nodup) (p : SupProc) (hp : p ∈ procs) :
    List.IsPrefix (outLinesOf p.name (wait_and_print_output g fuel procs).2.1)
      p.outQ := by
  induction fuel generalizing procs p with
  | zero =>
    show List.IsPrefix (outLinesOf p.name []) p.outQ
    exact ⟨p.outQ, rfl⟩
  | succ fuel ih =>
    obtain ⟨k, p', ht, hmem, hn, hd⟩ := passProcs_pref g procs hnd p hp
    cases hres : (passProcs g procs).2.2 with
    | some c =>
      simp only [wait_and_print_output, hres]
      rw [ht]
      exact List.take_prefix k p.outQ
    | none =>
      simp only [wait_and_print_output, hres]
      show List.IsPrefix (outLinesOf p.name ((passProcs g procs).2.1 ++
        (wait_and_print_output g fuel (passProcs g procs).1).2.1)) p.outQ
      rw [outLinesOf_append, ht]
      have hnd2 : ((passProcs g procs).1.map SupProc.name).Nodup := by
        rw [passProcs_names]
        exact hnd
      have hpref := ih (passProcs g procs).1 hnd2 p' hmem
      rw [hn, hd] at hpref
      obtain ⟨tl, htl⟩ := hpref
      exact ⟨tl, by rw [List.append_assoc, htl, List.take_append_drop]⟩

theorem passProcs_all_running_poll (g : Nat) (procs : List SupProc)
    (hrun : ∀ q ∈ procs, q.exited = none) :
    (passProcs g procs).2.2 = none ∧
      ∀ q ∈ (passProcs g procs).1, q.exited = none := by
  induction procs with
  | nil => exact ⟨rfl, by simp [passProcs]⟩
  | cons q rest ih =>
    have hq := hrun q (List.mem_cons_self q rest)
    rw [passProcs_cons_run g q rest hq]
    obtain ⟨h1, h2⟩ := ih (fun r hr => hrun r (List.mem_cons_of_mem q hr))
    refine ⟨h1, ?_⟩
    intro r hr
    rcases List.mem_cons.mp hr with rfl | hr
    · rw [stepProc_exited g q]
      exact hq
    · exact h2 r hr

theorem passProcs_all_running_outlines (g : Nat) (procs : List SupProc)
    (hnd : (procs.map SupProc.name).Nodup)
    (hrun : ∀ q ∈ procs, q.exited = none) (p : SupProc) (hp : p ∈ procs) :
    outLinesOf p.name (passProcs g procs).2.1 = p.outQ.take 1 ∧
      ∃ p', p' ∈ (passProcs g procs).1 ∧ p'.name = p.name ∧
        p'.outQ = p.outQ.drop 1 := by
  induction procs with
  | nil => cases hp
  | cons q rest ih =>
    have hnd1 : q.name ∉ rest.map SupProc.name ∧ (rest.map SupProc.name).Nodup := by
      have h0 := hnd
      simp only [List.map_cons, List.nodup_cons] at h0
      exact h0
    have hq := hrun q (List.mem_cons_self q rest)
    rcases List.mem_cons.mp hp with rfl | hp
    · obtain ⟨ht, hd, hn⟩ := stepProc_outlines_self g p
      rw [passProcs_cons_run g p rest hq]
      refine ⟨?_, (stepProc g p).1, List.mem_cons_self _ _, hn, hd⟩
      show outLinesOf p.name ((stepProc g p).2.1 ++ (passProcs g rest).2.1) =
        p.outQ.take 1
      rw [outLinesOf_append, ht, passProcs_outlines_notmem g p.name rest
        (fun r hr hrn => hnd1.1 (hrn ▸ List.mem_map_of_mem SupProc.name hr))]
      simp
    · have hqp : q.name ≠ p.name :=
        fun hc => hnd1.1 (hc ▸ List.mem_map_of_mem SupProc.name hp)
      rw [passProcs_cons_run g q rest hq]
      obtain ⟨ht, p', hmem, hn, hd⟩ :=
        ih hnd1.2 (fun r hr => hrun r (List.mem_cons_of_mem q hr)) hp
      refine ⟨?_, p', List.mem_cons_of_mem _ hmem, hn, hd⟩
      show outLinesOf p.name ((stepProc g q).2.1 ++ (passProcs g rest).2.1) =
        p.outQ.take 1
      rw [outLinesOf_append, stepProc_outlines_other g p.name q hqp, ht]
      rfl

theorem wait_all_running_outlines (g fuel : Nat) (procs : List SupProc)
    (hnd : (procs.map SupProc.name).Nodup)
    (hrun : ∀ q ∈ procs, q.exited = none) (p : SupProc) (hp : p ∈ procs) :
    outLinesOf p.name (wait_and_print_output g fuel procs).2.1 =
      p.outQ.take fuel := by
  induction fuel generalizing procs p with
  | zero => rfl
  | succ fuel ih =>
    have hpoll := (passProcs_all_running_poll g procs hrun).1
    simp only [wait_and_print_output, hpoll]
    obtain ⟨ht, p', hmem, hn, hd⟩ :=
      passProcs_all_running_outlines g procs hnd hrun p hp
    show outLinesOf p.name ((passProcs g procs).2.1 ++
      (wait_and_print_output g fuel (passProcs g procs).1).2.1) = _
    rw [outLinesOf_append, ht]
    have hnd2 : ((passProcs g procs).1.map SupProc.name).Nodup := by
      rw [passProcs_names]
      exact hnd
    have hrun2 := (passProcs_all_running_poll g procs hrun).2
    have hrec := ih (passProcs g procs).1 hnd2 hrun2 p' hmem
    rw [hn, hd] at hrec
    rw [hrec, ← List.take_add, Nat.add_comm 1 fuel]

/-- C2 counterexample: a child (named 0) has exited with code 0 while two
stdout lines (10 and 11) are still queued. The supervision run (any
iteration bound; here 9) prints only the first queued line and then
returns upon observing the exit: line 11, written before the child's
termination, is never printed — refuting the claim that every line written
before termination is eventually printed with no silent truncation. -/
theorem supervisor_truncates_output_cex :
    outLinesOf 0 (wait_and_print_output 3 9 [⟨0, [10, 11], [], some 0⟩]).2.1 =
        [10] ∧
      (10 ∈ [10, 11] ∧ 11 ∈ [10, 11]) ∧ 11 ∉ [10] := by
  decide

/-- C2 amended: for every child of the polling loop (children having
distinct names), the stdout lines the supervisor prints for that child are
an in-order prefix of the lines the child queued — no reordering, loss in
the middle, or fabrication — and as long as no child in the group has
exited, `fuel` loop iterations print exactly the first `fuel` queued lines
(so every line is eventually printed while supervision continues). But
once any child's exit is observed the loop returns immediately and lines
still queued beyond that prefix are silently dropped (see the
counterexample). -/
theorem supervisor_output_order (g fuel : Nat) (procs : List SupProc)
    (hnd : (procs.map SupProc.name).Nodup) (p : SupProc) (hp : p ∈ procs) :
    List.IsPrefix (outLinesOf p.name (wait_and_print_output g fuel procs).2.1)
        p.outQ ∧
      ((∀ q ∈ procs, q.exited = none) →
        outLinesOf p.name (wait_and_print_output g fuel procs).2.1 =
          p.outQ.take fuel) :=
  ⟨wait_outlines_pref g fuel procs hnd p hp,
   fun hrun => wait_all_running_outlines g fuel procs hnd hrun p hp⟩

/-- Witness for the amended C2 at a concrete single running child with two
queued lines and two loop iterations. -/
theorem supervisor_output_order_witness :
    List.IsPrefix
        (outLinesOf (⟨5, [8, 9], [], none⟩ : SupProc).name
          (wait_and_print_output 0 2 [⟨5, [8, 9], [], none⟩]).2.1)
        (⟨5, [8, 9], [], none⟩ : SupProc).outQ ∧
      ((∀ q ∈ [(⟨5, [8, 9], [], none⟩ : SupProc)], q.exited = none) →
        outLinesOf (⟨5, [8, 9], [], none⟩ : SupProc).name
          (wait_and_print_output 0 2 [⟨5, [8, 9], [], none⟩]).2.1 =
          (⟨5, [8, 9], [], none⟩ : SupProc).outQ.take 2) :=
  supervisor_output_order 0 2 [⟨5, [8, 9], [], none⟩] (by decide)
    ⟨5, [8, 9], [], none⟩ (by decide)

/-!
## Interrupt handling (C7) and the supervisor exit code (C3)
-/

/-- The `except KeyboardInterrupt` handler of `tcpwanserver` and
`tcpwanclient` (the two are identical):
`for proc in procs: proc.send_signal(INT_SIGNAL); wait_and_print_output(...)`.
Note the `wait_and_print_output` call sits inside the `for` body, so a full
drain-and-report run follows each signal. The `for` iterates the `procs`
list by position while the children's queue/poll state evolves across the
inner runs; children are identified by position, their names never change.
The `Stopping all processes...` banner print is elided. -/
def interruptHandlerAux (g fuel : Nat) :
    List SupProc → List Nat → List SupEvent
  | _, [] => []
  | procs, i :: rest =>
    let nm := ((procs.get? i).map SupProc.name).getD 0
    let r := wait_and_print_output g fuel procs
    SupEvent.signalSent nm :: (r.2.1 ++ interruptHandlerAux g fuel r.1 rest)

/-- The whole interrupt handler over the group, in group order. -/
def interruptHandler (g fuel : Nat) (procs : List SupProc) : List SupEvent :=
  interruptHandlerAux g fuel procs (List.range procs.length)

/-- C7 counterexample: two children (names 1 and 2), both already exited
with code 0. The interrupt handler's trace is signal child 1, then a full
drain-and-report run (which reports child 1's exit), then signal child 2,
then another drain run. A drain-and-report event (index 1) occurs before
the signal to child 2 (index 2), refuting "sends the signal to every child
in group order and only then re-enters the drain-and-report loop". -/
theorem interrupt_drain_between_signals_cex :
    interruptHandler 0 1 [⟨1, [], [], some 0⟩, ⟨2, [], [], some 0⟩] =
        [SupEvent.signalSent 1, SupEvent.reportedExit 0 1 0,
         SupEvent.signalSent 2, SupEvent.reportedExit 0 1 0] ∧
      (interruptHandler 0 1 [⟨1, [], [], some 0⟩, ⟨2, [], [], some 0⟩]).get? 1 =
        some (SupEvent.reportedExit 0 1 0) ∧
      (interruptHandler 0 1 [⟨1, [], [], some 0⟩, ⟨2, [], [], some 0⟩]).get? 2 =
        some (SupEvent.signalSent 2) ∧
      (1 : Nat) < 2 := by
  decide

theorem stepProc_signals_nil (g : Nat) (p : SupProc) :
    (stepProc g p).2.1.filterMap signalOf = [] := by
  obtain ⟨nm, oq, er, ex⟩ := p
  cases oq <;> cases er <;> cases ex <;> rfl

theorem passProcs_signals_nil (g : Nat) (procs : List SupProc) :
    (passProcs g procs).2.1.filterMap signalOf = [] := by
  induction procs with
  | nil => rfl
  | cons q rest ih =>
    cases hex : q.exited with
    | some c =>
      rw [passProcs_cons_exit g q rest c hex]
      exact stepProc_signals_nil g q
    | none =>
      rw [passProcs_cons_run g q rest hex]
      show ((stepProc g q).2.1 ++ (passProcs g rest).2.1).filterMap signalOf = []
      rw [List.filterMap_append, stepProc_signals_nil g q, ih]
      rfl

theorem wait_signals_nil (g fuel : Nat) (procs : List SupProc) :
    (wait_and_print_output g fuel procs).2.1.filterMap signalOf = [] := by
  induction fuel generalizing procs with
  | zero => rfl
  | succ fuel ih =>
    cases hres : (passProcs g procs).2.2 with
    | some c =>
      simp only [wait_and_print_output, hres]
      exact passProcs_signals_nil g procs
    | none =>
      simp only [wait_and_print_output, hres]
      show ((passProcs g procs).2.1 ++
        (wait_and_print_output g fuel (passProcs g procs).1).2.1).filterMap
          signalOf = []
      rw [List.filterMap_append, passProcs_signals_nil g procs, ih]
      rfl

theorem interruptHandlerAux_signals (g fuel : Nat) (idxs : List Nat) :
    ∀ procs : List SupProc,
      (interruptHandlerAux g fuel procs idxs).filterMap signalOf =
        idxs.map (fun i => ((procs.get? i).map SupProc.name).getD 0) := by
  induction idxs with
  | nil => intro procs; rfl
  | cons i rest ih =>
    intro procs
    show (SupEvent.signalSent (((procs.get? i).map SupProc.name).getD 0) ::
      ((wait_and_print_output g fuel procs).2.1 ++
        interruptHandlerAux g fuel (wait_and_print_output g fuel procs).1
          rest)).filterMap signalOf = _
    rw [show ∀ (l : List SupEvent) (nm : Nat),
        (SupEvent.signalSent nm :: l).filterMap signalOf =
          nm :: l.filterMap signalOf from fun l nm => rfl]
    rw [List.filterMap_append, wait_signals_nil, List.nil_append,
      ih (wait_and_print_output g fuel procs).1]
    refine congrArg₂ List.cons rfl ?_
    apply List.map_congr_left
    intro j _
    have hnames := wait_names g fuel procs
    have h1 : ((wait_and_print_output g fuel procs).1.get? j).map SupProc.name =
        (procs.get? j).map SupProc.name := by
      rw [← List.get?_map, ← List.get?_map, hnames]
    rw [h1]

theorem range_map_get_name (procs : List SupProc) :
    (List.range procs.length).map
      (fun i => ((procs.get? i).map SupProc.name).getD 0) =
      procs.map SupProc.name := by
  induction procs with
  | nil => rfl
  | cons q rest ih =>
    rw [show (q :: rest).length = rest.length + 1 from rfl, List.range_succ_eq_map]
    simp only [List.map_cons, List.map_map]
    refine congrArg₂ List.cons rfl ?_
    rw [← ih]
    apply List.map_congr_left
    intro i _
    rfl

/-- C7 amended: on an operator interrupt the handler signals every child
of the group exactly once, in group order — the sequence of `send_signal`
targets in the handler's trace is exactly the group's name list — and all
of this happens before the handler (and hence the supervisor) returns.
However, the handler re-enters the full drain-and-report loop immediately
after each individual signal (the call is inside the `for` body), not once
after all signals; see the counterexample. -/
theorem interrupt_signals_all_in_order (g fuel : Nat) (procs : List SupProc) :
    (interruptHandler g fuel procs).filterMap signalOf =
      procs.map SupProc.name := by
  rw [interruptHandler,
    interruptHandlerAux_signals g fuel (List.range procs.length) procs,
    range_map_get_name]

/-- `tcpwanserver(args)` / `tcpwanclient(args)` after launching the group:
run the supervision loop; on an operator interrupt (which the `try` block
catches around the whole supervision), print the stop banner (elided) and
run the interrupt handler. Both functions return `None`; only the events
are observable. -/
def tcpwanserver (g fuel : Nat) (procs : List SupProc) (interrupted : Bool) :
    List SupEvent :=
  if interrupted then interruptHandler g fuel procs
  else (wait_and_print_output g fuel procs).2.1

/-- The supervisor process's own exit status paired with its printed
events: start-tunnel.py ends with the plain statement `args.func(args)`;
`tcpwanserver`/`tcpwanclient` return `None` on both the normal and the
interrupt path and the script never calls `sys.exit` after argument
parsing, so the interpreter exits with status 0 regardless of any child's
exit code — a child's code appears only in the printed report. -/
def supervisorExit (g fuel : Nat) (procs : List SupProc) (interrupted : Bool) :
    Int × List SupEvent :=
  (0, tcpwanserver g fuel procs interrupted)

/-- C3 counterexample: one child exits unexpectedly (no interrupt) with
code 7; the supervisor's own exit status is 0, not 7 — the child's code
shows up only in the printed exit report. -/
theorem supervisor_exit_code_cex :
    (supervisorExit 0 1 [⟨1, [], [], some 7⟩] false).1 = 0 ∧
      ((7 : Int) ≠ 0) ∧
      SupEvent.reportedExit 0 1 7 ∈
        (supervisorExit 0 1 [⟨1, [], [], some 7⟩] false).2 := by
  decide

/-- C3 amended: the supervisor's own exit status is 0 on every path —
operator interrupt and unexpected child exit alike. When a child exits
unexpectedly (here: first exited child `p` with code `c`), `c` is reported
in the printed output but never propagated to the supervisor's exit
status. -/
theorem supervisor_exit_code_zero (g fuel : Nat) (pre suf : List SupProc)
    (p : SupProc) (c : Int)
    (hpre : ∀ q ∈ pre, q.exited = none) (hp : p.exited = some c)
    (hfuel : 0 < fuel) :
    (∀ b : Bool, (supervisorExit g fuel (pre ++ p :: suf) b).1 = 0) ∧
      SupEvent.reportedExit g p.name c ∈
        (supervisorExit g fuel (pre ++ p :: suf) false).2 := by
  refine ⟨fun b => rfl, ?_⟩
  obtain ⟨fuel', rfl⟩ : ∃ f, fuel = f + 1 := ⟨fuel - 1, by omega⟩
  obtain ⟨procs', evs, hpass, hex, hsig⟩ :=
    passProcs_first_exit g pre suf p c hpre hp
  show SupEvent.reportedExit g p.name c ∈
    (wait_and_print_output g (fuel' + 1) (pre ++ p :: suf)).2.1
  rw [show wait_and_print_output g (fuel' + 1) (pre ++ p :: suf) =
    (procs', evs, some c) by simp only [wait_and_print_output, hpass]]
  have hx : (g, p.name, c) ∈ evs.filterMap exitReportOf := by
    rw [hex]
    exact List.mem_singleton_self _
  obtain ⟨e, he, hfe⟩ := List.mem_filterMap.mp hx
  cases e with
  | printedOut a b l => simp [exitReportOf] at hfe
  | printedErr a b l => simp [exitReportOf] at hfe
  | reportedExit a b c0 =>
    simp only [exitReportOf, Option.some_inj, Prod.mk.injEq] at hfe
    obtain ⟨rfl, rfl, rfl⟩ := hfe
    exact he
  | signalSent a => simp [exitReportOf] at hfe

/-- Witness for the amended C3: a single child exited with code 7. -/
theorem supervisor_exit_code_zero_witness :
    (∀ b : Bool,
        (supervisorExit 0 1 ([] ++ (⟨1, [], [], some 7⟩ : SupProc) :: []) b).1 = 0) ∧
      SupEvent.reportedExit 0 (⟨1, [], [], some 7⟩ : SupProc).name 7 ∈
        (supervisorExit 0 1 ([] ++ (⟨1, [], [], some 7⟩ : SupProc) :: []) false).2 :=
  supervisor_exit_code_zero 0 1 [] [] ⟨1, [], [], some 7⟩ 7 (by decide) rfl
    (by decide)
